import Mathlib

/-!
Verification of the stim4prf presentation scheduler and event-accounting
logic.  The definitions below are shallow embeddings of the Python source:

* `analyze_reaction_times`, `firstQualifying`, `analyzeLoop`
  embed `stim4prf/reaction_time.py` (`analyze_reaction_times`);
* `fixationUpdate`, `switchEligible`, `fixationRun`
  embed `stim4prf/fixation.py` (`FixationDot.update`);
* `presentationLoop`, `newButtonEvents`, `pressedFiltered`, `frameSchedule`
  embed the main loop of `stim4prf/presenter.py` (`PRFStimulusPresenter.run`,
  lines 282-320);
* `concatEvents`, `sortByTime`, `assembleEvents` embed the event-log
  assembly (`presenter.py` lines 339-348; Python `list.sort` is stable and
  is modelled by the stable `List.insertionSort` keyed on the timestamp);
* `teardown`, `teardownRuns` embed the `finally` block of
  `PRFStimulusPresenter.run` (lines 376-392) and the method's exit paths.

Times and random draws are rationals; the external keyboard and clock are
modelled as per-tick inputs.  Fallible cleanup calls are modelled by
boolean failure flags; the pair returned by `teardown` is the list of
cleanup actions that were attempted, together with whether an exception
escapes the `finally` block.
-/

attribute [local semireducible] Rat.mul Rat.add Rat.sub Rat.inv

namespace Stim4prf

/-! ### Reaction-time analysis (`stim4prf/reaction_time.py`) -/

/-- The inner `for btn_time, _ in button_events_sorted` loop of
`analyze_reaction_times`: return the latency of the first button event in
the given list whose latency `dt = btn_time - switch_time` lies in
`[min_rt, max_rt]`, or `none` when no event qualifies. -/
def firstQualifying (min_rt max_rt switch_time : ℚ) :
    List (ℚ × String) → Option ℚ
  | [] => none
  | (btn_time, _) :: rest =>
    let dt := btn_time - switch_time
    if min_rt ≤ dt ∧ dt ≤ max_rt then some dt
    else firstQualifying min_rt max_rt switch_time rest

/-- The outer `for switch_time, _ in switch_log` loop of
`analyze_reaction_times`, accumulating `n_hits` and `reaction_times`. -/
def analyzeLoop (min_rt max_rt : ℚ) (buttonsSorted : List (ℚ × String)) :
    List (ℚ × String) → ℕ → List ℚ → ℕ × List ℚ
  | [], n_hits, reaction_times => (n_hits, reaction_times)
  | (switch_time, _) :: rest, n_hits, reaction_times =>
    match firstQualifying min_rt max_rt switch_time buttonsSorted with
    | some dt =>
      analyzeLoop min_rt max_rt buttonsSorted rest (n_hits + 1)
        (reaction_times ++ [dt])
    | none => analyzeLoop min_rt max_rt buttonsSorted rest n_hits reaction_times

/-- `analyze_reaction_times` from `stim4prf/reaction_time.py`.  Python's
`sorted(button_events, key=lambda x: x[0])` is the stable sort by
timestamp; `np.mean(reaction_times) if reaction_times else float("nan")`
is modelled by an `Option` (`none` standing for `NaN`).  The defaults in
the source are `min_rt = 0.3`, `max_rt = 3.0`. -/
def analyze_reaction_times (switch_log button_events : List (ℚ × String))
    (min_rt max_rt : ℚ) : ℕ × ℕ × Option ℚ × List ℚ :=
  let button_events_sorted :=
    List.insertionSort (fun a b => a.1 ≤ b.1) button_events
  let res := analyzeLoop min_rt max_rt button_events_sorted switch_log 0 []
  let mean_rt : Option ℚ :=
    if res.2.isEmpty then none else some (res.2.sum / (res.2.length : ℚ))
  (res.1, switch_log.length, mean_rt, res.2)

/-! ### Fixation controller (`stim4prf/fixation.py`, `FixationDot`) -/

/-- The per-run constants of a `FixationDot`: the two configured colors
(`colors[0]` is also the initial color), `color_switch_prob` and
`min_switch_interval`. -/
structure FixationConfig where
  colors : String × String
  color_switch_prob : ℚ
  min_switch_interval : ℚ

/-- The mutable state of a `FixationDot`: `current_color`,
`last_switch_time` (`None` before the first switch) and the append-only
`switch_log`. -/
structure FixationState where
  current_color : String
  last_switch_time : Option ℚ
  switch_log : List (ℚ × String)
deriving DecidableEq

/-- State of a freshly constructed `FixationDot`:
`current_color = colors[0]`, `last_switch_time = None`, empty log. -/
def initialFixation (cfg : FixationConfig) : FixationState :=
  ⟨cfg.colors.1, none, []⟩

/-- The debounce guard of `FixationDot.update`:
`self.last_switch_time is None or (now - self.last_switch_time) >=
self.min_switch_interval`. -/
def switchEligible (cfg : FixationConfig) (s : FixationState) (now : ℚ) :
    Bool :=
  match s.last_switch_time with
  | none => true
  | some last => decide (cfg.min_switch_interval ≤ now - last)

/-- The color toggle of `FixationDot.update`:
`self.colors[1] if self.current_color == self.colors[0] else
self.colors[0]`. -/
def toggleColor (cfg : FixationConfig) (c : String) : String :=
  if c = cfg.colors.1 then cfg.colors.2 else cfg.colors.1

/-- `FixationDot.update(now)`.  The call `random.random()` is modelled by
the explicit `draw` input, compared against `color_switch_prob` exactly as
in the source (`random.random() < self.color_switch_prob`). -/
def fixationUpdate (cfg : FixationConfig) (s : FixationState)
    (now : Option ℚ) (draw : ℚ) : FixationState :=
  match now with
  | none => s
  | some t =>
    if switchEligible cfg s t then
      if draw < cfg.color_switch_prob then
        let nc := toggleColor cfg s.current_color
        ⟨nc, some t, s.switch_log ++ [(t, nc)]⟩
      else s
    else s

/-- A sequence of `update` calls, each with its `now` argument and the
value drawn by `random.random()` during that call. -/
def fixationRun (cfg : FixationConfig) :
    List (Option ℚ × ℚ) → FixationState → FixationState
  | [], s => s
  | (now, draw) :: rest, s =>
    fixationRun cfg rest (fixationUpdate cfg s now draw)

/-! ### Event log (`presenter.py` lines 339-348) -/

/-- The event kinds written to the run log. -/
inductive EventKind where
  | frame_onset
  | fixation_color_switch
  | button_press
  | scanner_trigger
deriving DecidableEq

/-- One row of the run log: the tuples `(t, event, value)` appended to
`all_events` in `PRFStimulusPresenter.run`; the frame index value is
rendered as a string. -/
structure Event where
  time : ℚ
  kind : EventKind
  val : String
deriving DecidableEq

/-- Comparison key of `all_events.sort(key=lambda x: x[0])`: order by
timestamp only. -/
def eventLE (a b : Event) : Prop := a.time ≤ b.time

instance : DecidableRel eventLE :=
  fun a b => inferInstanceAs (Decidable (a.time ≤ b.time))

instance : IsTotal Event eventLE := ⟨fun a b => le_total a.time b.time⟩

instance : IsTrans Event eventLE := ⟨fun _ _ _ h1 h2 => le_trans h1 h2⟩

/-- Python's `list.sort` is a stable sort; it is modelled by the stable
`List.insertionSort` keyed on the timestamp. -/
def sortByTime (l : List Event) : List Event := List.insertionSort eventLE l

/-- The concatenation order of `PRFStimulusPresenter.run` lines 340-347:
frame onsets (values `enumerate` indices), then fixation color switches,
then button presses, then scanner triggers (value `f"button
{self.trigger_key}"`). -/
def concatEvents (frame_onsets : List ℚ) (switch_log : List (ℚ × String))
    (button_events : List (ℚ × String)) (scan_trigger_times : List ℚ)
    (trigger_key : String) : List Event :=
  (frame_onsets.enum.map fun p => ⟨p.2, EventKind.frame_onset, toString p.1⟩)
    ++ (switch_log.map fun p => ⟨p.1, EventKind.fixation_color_switch, p.2⟩)
    ++ (button_events.map fun p => ⟨p.1, EventKind.button_press, p.2⟩)
    ++ (scan_trigger_times.map fun t =>
          ⟨t, EventKind.scanner_trigger, "button " ++ trigger_key⟩)

/-- Lines 339-348 of `presenter.py`: build `all_events` by concatenation
and then sort it stably by timestamp. -/
def assembleEvents (frame_onsets : List ℚ) (switch_log : List (ℚ × String))
    (button_events : List (ℚ × String)) (scan_trigger_times : List ℚ)
    (trigger_key : String) : List Event :=
  sortByTime
    (concatEvents frame_onsets switch_log button_events scan_trigger_times
      trigger_key)

/-! ### The main presentation loop (`presenter.py` lines 282-320)

The keyboard and the monotonic clock are external inputs; one loop
iteration observes one `Tick`: whether `kb.getKeys([abort_key])` reported
the abort key, the clock reading `t`, whether `kb.getKeys([trigger_key])`
reported the trigger key, and the pressed-key snapshot returned by
`kb.getKeys(keyList=button_keys, ...)` before filtering. -/

structure Tick where
  abortPressed : Bool
  time : ℚ
  triggerPressed : Bool
  pressedKeys : List String

/-- The per-run mutable state initialised in lines 270-275 of
`presenter.py`, together with the `aborted` flag. -/
structure LoopState where
  frame_idx : ℕ
  frame_onsets : List ℚ
  button_events : List (ℚ × String)
  prev_button_state : List String
  scan_trigger_times : List ℚ
  aborted : Bool

/-- State after `presenter.py` lines 270-275. -/
def initialLoopState : LoopState := ⟨0, [], [], [], [], false⟩

/-- The effect of `kb.getKeys(keyList=button_keys, ...)`: the raw snapshot
restricted to the configured response keys. -/
def pressedFiltered (button_keys snapshot : List String) : List String :=
  snapshot.filter fun k => decide (k ∈ button_keys)

/-- Lines 301-303 of `presenter.py`: one `(t, key)` button event per
pressed response key whose name is not in `prev_button_state`. -/
def newButtonEvents (button_keys prev snapshot : List String) (t : ℚ) :
    List (ℚ × String) :=
  ((pressedFiltered button_keys snapshot).filter fun k => decide (k ∉ prev)).map
    fun k => (t, k)

/-- The edge-detection logic run over a list of ticks `(t, snapshot)`,
threading `prev_button_state` exactly as lines 297-304 do. -/
def inputGateRun (button_keys : List String) :
    List (ℚ × List String) → List String → List (ℚ × String)
  | [], _ => []
  | (t, snap) :: rest, prev =>
    newButtonEvents button_keys prev snap t
      ++ inputGateRun button_keys rest (pressedFiltered button_keys snap)

/-- The body of one non-aborting iteration of the main `while` loop
(lines 289-320): read `t`, log a scanner trigger if the trigger key is
down, log edge-triggered button events and update `prev_button_state`,
and present the next frame when `t >= frame_idx * frame_duration`. -/
def tickAdvance (fd : ℚ) (button_keys : List String) (s : LoopState)
    (tk : Tick) : LoopState :=
  let t := tk.time
  let s1 :=
    if tk.triggerPressed then
      { s with scan_trigger_times := s.scan_trigger_times ++ [t] }
    else s
  let s2 :=
    { s1 with
      button_events :=
        s1.button_events
          ++ newButtonEvents button_keys s1.prev_button_state tk.pressedKeys t
      prev_button_state := pressedFiltered button_keys tk.pressedKeys }
  if (s2.frame_idx : ℚ) * fd ≤ t then
    { s2 with
      frame_onsets := s2.frame_onsets ++ [t]
      frame_idx := s2.frame_idx + 1 }
  else s2

/-- The main `while frame_idx < self.nFrames` loop of
`PRFStimulusPresenter.run`: stop when all `N` frames are presented; when
the abort key is observed, set `aborted` and break; otherwise run one
iteration body and continue with the next tick. -/
def presentationLoop (fd : ℚ) (N : ℕ) (button_keys : List String) :
    List Tick → LoopState → LoopState
  | [], s => s
  | tk :: rest, s =>
    if N ≤ s.frame_idx then s
    else if tk.abortPressed then { s with aborted := true }
    else presentationLoop fd N button_keys rest (tickAdvance fd button_keys s tk)

/-- The frame-scheduling projection of the loop: given the clock readings
of the successive ticks and the current `frame_idx`, return the list of
recorded frame onsets and the final `frame_idx`.  This is lines 282, 289
and 307-320 of `presenter.py` with the input-polling code elided. -/
def frameSchedule (fd : ℚ) (N : ℕ) : List ℚ → ℕ → List ℚ × ℕ
  | [], i => ([], i)
  | t :: ts, i =>
    if N ≤ i then ([], i)
    else if (i : ℚ) * fd ≤ t then
      let r := frameSchedule fd N ts (i + 1)
      (t :: r.1, r.2)
    else frameSchedule fd N ts i

/-- Modelled from the spec: the frame-due policy.  `FirstDuePolicy fd i ts
os` states that, starting at frame index `i`, the onset list `os` is
obtained from the tick readings `ts` by presenting each frame at the first
tick whose clock reading `t` satisfies `t ≥ frame_index × frame_duration`
and skipping only not-yet-due ticks, never a due frame. -/
inductive FirstDuePolicy (fd : ℚ) : ℕ → List ℚ → List ℚ → Prop where
  | stop (i : ℕ) (rest : List ℚ) : FirstDuePolicy fd i rest []
  | skip (i : ℕ) (t : ℚ) (ts os : List ℚ) :
      t < (i : ℚ) * fd → FirstDuePolicy fd i ts os →
      FirstDuePolicy fd i (t :: ts) os
  | present (i : ℕ) (t : ℚ) (ts os : List ℚ) :
      (i : ℚ) * fd ≤ t → FirstDuePolicy fd (i + 1) ts os →
      FirstDuePolicy fd i (t :: ts) (t :: os)

/-! ### Teardown (`presenter.py` lines 376-392)

The `finally` block.  Each fallible external call gets a boolean failure
flag; `teardown` returns the list of cleanup actions attempted, in order,
and whether an exception escapes the block.  Per Python semantics an
exception raised inside a `finally` suite aborts the rest of the suite:
`send_message("stimulus_end")` is unguarded, `stop_recording` is wrapped
in `try/except: pass`, `download_data` is wrapped in
`try/finally: close()`, and `win.close()` comes last. -/

inductive CleanupAct where
  | sendEndMessage
  | stopRecording
  | downloadData
  | closeTracker
  | closeWindow
deriving DecidableEq

def teardown (hasTracker failMsg _failStop failDownload failCloseDev
    failCloseWin : Bool) : List CleanupAct × Bool :=
  if hasTracker then
    if failMsg then ([CleanupAct.sendEndMessage], true)
    else
      let acts := [CleanupAct.sendEndMessage, CleanupAct.stopRecording,
        CleanupAct.downloadData, CleanupAct.closeTracker]
      if failDownload || failCloseDev then (acts, true)
      else (acts ++ [CleanupAct.closeWindow], failCloseWin)
  else ([CleanupAct.closeWindow], failCloseWin)

/-- The exit paths of `PRFStimulusPresenter.run`: the break-screen abort
(`return` at line 173, before the `try` block), the pre-trigger abort
(`return` at line 262, inside the `try`), an abort during the loop, an
exception during the run, and normal completion. -/
inductive ExitPath where
  | breakScreenAbort
  | preTriggerAbort
  | runAbort
  | runException
  | normalCompletion
deriving DecidableEq

/-- How many times the `finally` block executes on each exit path: the
break-screen abort returns before the `try` statement is entered, so the
`finally` suite never runs there; every other path runs it exactly once. -/
def teardownRuns : ExitPath → ℕ
  | ExitPath.breakScreenAbort => 0
  | _ => 1

/-! ### Lemmas about the reaction-time analysis -/

theorem firstQualifying_isSome (m M s : ℚ) :
    ∀ bs : List (ℚ × String),
      (firstQualifying m M s bs).isSome = true ↔
        ∃ b ∈ bs, m ≤ b.1 - s ∧ b.1 - s ≤ M
  | [] => by simp [firstQualifying]
  | (bt, c) :: rest => by
    rw [firstQualifying]
    by_cases h : m ≤ bt - s ∧ bt - s ≤ M
    · simp only [if_pos h, Option.isSome_some]
      exact ⟨fun _ => ⟨(bt, c), List.mem_cons_self _ _, h⟩, fun _ => trivial⟩
    · simp only [if_neg h, firstQualifying_isSome m M s rest]
      constructor
      · rintro ⟨b, hb, hq⟩
        exact ⟨b, List.mem_cons_of_mem _ hb, hq⟩
      · rintro ⟨b, hb, hq⟩
        rcases List.mem_cons.mp hb with rfl | hm
        · exact absurd hq h
        · exact ⟨b, hm, hq⟩

theorem firstQualifying_some_bounds (m M s dt : ℚ) :
    ∀ bs : List (ℚ × String),
      firstQualifying m M s bs = some dt → m ≤ dt ∧ dt ≤ M
  | [] => by simp [firstQualifying]
  | (bt, c) :: rest => by
    rw [firstQualifying]
    by_cases h : m ≤ bt - s ∧ bt - s ≤ M
    · simp only [if_pos h]
      intro he
      exact (Option.some_inj.mp he) ▸ h
    · simp only [if_neg h]
      exact firstQualifying_some_bounds m M s dt rest

theorem analyzeLoop_hits (m M : ℚ) (bs : List (ℚ × String)) :
    ∀ (sl : List (ℚ × String)) (n : ℕ) (acc : List ℚ),
      (analyzeLoop m M bs sl n acc).1
        = n + sl.countP fun p => (firstQualifying m M p.1 bs).isSome
  | [], n, acc => by simp [analyzeLoop]
  | (st, c) :: rest, n, acc => by
    cases h : firstQualifying m M st bs with
    | some dt =>
      simp [analyzeLoop, h, analyzeLoop_hits m M bs rest (n + 1) (acc ++ [dt]),
        List.countP_cons]
      omega
    | none =>
      simp [analyzeLoop, h, analyzeLoop_hits m M bs rest n acc,
        List.countP_cons]

theorem analyzeLoop_hits_len (m M : ℚ) (bs : List (ℚ × String)) :
    ∀ (sl : List (ℚ × String)) (n : ℕ) (acc : List ℚ),
      (analyzeLoop m M bs sl n acc).1 + acc.length
        = n + (analyzeLoop m M bs sl n acc).2.length
  | [], n, acc => by simp [analyzeLoop]
  | (st, c) :: rest, n, acc => by
    cases h : firstQualifying m M st bs with
    | some dt =>
      have hrec := analyzeLoop_hits_len m M bs rest (n + 1) (acc ++ [dt])
      simp only [List.length_append, List.length_singleton] at hrec
      simp [analyzeLoop, h]
      omega
    | none =>
      have hrec := analyzeLoop_hits_len m M bs rest n acc
      simp [analyzeLoop, h]
      omega

theorem analyzeLoop_hits_le (m M : ℚ) (bs : List (ℚ × String)) :
    ∀ (sl : List (ℚ × String)) (n : ℕ) (acc : List ℚ),
      (analyzeLoop m M bs sl n acc).1 ≤ n + sl.length
  | [], n, acc => by simp [analyzeLoop]
  | (st, c) :: rest, n, acc => by
    cases h : firstQualifying m M st bs with
    | some dt =>
      have hrec := analyzeLoop_hits_le m M bs rest (n + 1) (acc ++ [dt])
      simp [analyzeLoop, h, List.length_cons]
      omega
    | none =>
      have hrec := analyzeLoop_hits_le m M bs rest n acc
      simp [analyzeLoop, h, List.length_cons]
      omega

theorem analyzeLoop_mem_bounds (m M : ℚ) (bs : List (ℚ × String)) :
    ∀ (sl : List (ℚ × String)) (n : ℕ) (acc : List ℚ),
      (∀ dt ∈ acc, m ≤ dt ∧ dt ≤ M) →
      ∀ dt ∈ (analyzeLoop m M bs sl n acc).2, m ≤ dt ∧ dt ≤ M
  | [], n, acc => by
    intro h
    simp only [analyzeLoop]
    exact h
  | (st, c) :: rest, n, acc => by
    cases h : firstQualifying m M st bs with
    | some dt =>
      intro hacc
      rw [show analyzeLoop m M bs ((st, c) :: rest) n acc
          = analyzeLoop m M bs rest (n + 1) (acc ++ [dt]) by simp [analyzeLoop, h]]
      refine analyzeLoop_mem_bounds m M bs rest (n + 1) (acc ++ [dt]) ?_
      intro x hx
      rcases List.mem_append.mp hx with hx | hx
      · exact hacc x hx
      · rcases List.mem_singleton.mp hx with rfl
        exact firstQualifying_some_bounds m M st x bs h
    | none =>
      intro hacc
      rw [show analyzeLoop m M bs ((st, c) :: rest) n acc
          = analyzeLoop m M bs rest n acc by simp [analyzeLoop, h]]
      exact analyzeLoop_mem_bounds m M bs rest n acc hacc

/-- C2: `analyze_reaction_times` scores each switch independently against
the button events sorted ascending by time, taking the first press with
latency in `[min_rt, max_rt]`; it returns the hit count (the number of
switches with at least one qualifying press), the total switch count, the
mean latency (`none`, modelling `NaN`, when there is none) and the latency
list; one button press may count for several switches.  On switches at
`t=1.0, 5.0` and buttons at `t=1.5, 5.1` with the default bounds
`0.3, 3.0` the result is `hits=1, switches=2, mean_rt=0.5`. -/
theorem analyze_reaction_times_spec :
    (∀ (sl be : List (ℚ × String)) (m M : ℚ),
      (analyze_reaction_times sl be m M).2.1 = sl.length) ∧
    (∀ (sl be : List (ℚ × String)) (m M : ℚ),
      (analyze_reaction_times sl be m M).1
        = sl.countP fun p => decide (∃ b ∈ be, m ≤ b.1 - p.1 ∧ b.1 - p.1 ≤ M)) ∧
    analyze_reaction_times [(1, "magenta"), (5, "green")]
      [(3/2, "1"), (51/10, "1")] (3/10) 3 = (1, 2, some (1/2), [1/2]) ∧
    analyze_reaction_times [(1, "magenta"), (11/10, "green")] [(3/2, "1")]
      (3/10) 3 = (2, 2, some (9/20), [1/2, 2/5]) := by
  refine ⟨fun sl be m M => rfl, fun sl be m M => ?_, by decide, by decide⟩
  show (analyzeLoop m M (List.insertionSort (fun a b => a.1 ≤ b.1) be) sl 0 []).1 = _
  rw [analyzeLoop_hits]
  rw [Nat.zero_add]
  refine List.countP_congr fun p _ => ?_
  have hmem : (∃ b ∈ List.insertionSort (fun a b => a.1 ≤ b.1) be,
        m ≤ b.1 - p.1 ∧ b.1 - p.1 ≤ M)
      ↔ ∃ b ∈ be, m ≤ b.1 - p.1 ∧ b.1 - p.1 ≤ M := by
    constructor
    · rintro ⟨b, hb, hq⟩
      exact ⟨b, (List.perm_insertionSort _ be).mem_iff.mp hb, hq⟩
    · rintro ⟨b, hb, hq⟩
      exact ⟨b, (List.perm_insertionSort _ be).mem_iff.mpr hb, hq⟩
  rw [decide_eq_true_iff]
  exact (firstQualifying_isSome m M p.1 _).trans hmem

/-- C10: invariants of `analyze_reaction_times`: the hit count equals the
length of the returned latency list, is at most the switch count, and
every returned latency lies in `[min_rt, max_rt]`.  (The Python function
mutates neither input: it reads `switch_log` only by iteration and sorts
`button_events` with the copying `sorted`; the embedding is accordingly a
pure function of its arguments.) -/
theorem analyze_reaction_times_invariants (sl be : List (ℚ × String))
    (m M : ℚ) :
    (analyze_reaction_times sl be m M).1
        = (analyze_reaction_times sl be m M).2.2.2.length ∧
    (analyze_reaction_times sl be m M).1 ≤ (analyze_reaction_times sl be m M).2.1 ∧
    ∀ dt ∈ (analyze_reaction_times sl be m M).2.2.2, m ≤ dt ∧ dt ≤ M := by
  refine ⟨?_, ?_, ?_⟩
  · have := analyzeLoop_hits_len m M
      (List.insertionSort (fun a b => a.1 ≤ b.1) be) sl 0 []
    simpa [analyze_reaction_times] using this
  · have := analyzeLoop_hits_le m M
      (List.insertionSort (fun a b => a.1 ≤ b.1) be) sl 0 []
    simpa [analyze_reaction_times] using this
  · exact analyzeLoop_mem_bounds m M
      (List.insertionSort (fun a b => a.1 ≤ b.1) be) sl 0 [] (by simp)

/-- C10 witness: the invariants instantiated on a concrete run, with the
membership hypothesis of the bounds clause discharged at `dt = 1/2`. -/
theorem analyze_reaction_times_invariants_witness :
    (analyze_reaction_times [(1, "x")] [(3/2, "1")] (3/10) 3).1
        = (analyze_reaction_times [(1, "x")] [(3/2, "1")] (3/10) 3).2.2.2.length ∧
    (3/10 : ℚ) ≤ 1/2 ∧ (1/2 : ℚ) ≤ 3 :=
  ⟨(analyze_reaction_times_invariants [(1, "x")] [(3/2, "1")] (3/10) 3).1,
    (analyze_reaction_times_invariants [(1, "x")] [(3/2, "1")] (3/10) 3).2.2
      (1/2) (by decide)⟩

/-! ### Lemmas about the fixation controller -/

/-- Internal invariant of a `FixationDot`: consecutive switch-log entries
are at least `min_switch_interval` apart, `last_switch_time` is the
timestamp of the last log entry, and before the first switch the log is
empty. -/
def FixationLogInv (cfg : FixationConfig) (s : FixationState) : Prop :=
  List.Chain' (fun a b : ℚ × String => cfg.min_switch_interval ≤ b.1 - a.1)
      s.switch_log ∧
    (∀ t, s.last_switch_time = some t → ∃ c, s.switch_log.getLast? = some (t, c)) ∧
    (s.last_switch_time = none → s.switch_log = [])

theorem fixationUpdate_inv (cfg : FixationConfig) (s : FixationState)
    (now : Option ℚ) (draw : ℚ) (h : FixationLogInv cfg s) :
    FixationLogInv cfg (fixationUpdate cfg s now draw) := by
  obtain ⟨hchain, hlast, hnone⟩ := h
  cases now with
  | none => exact ⟨hchain, hlast, hnone⟩
  | some t =>
    by_cases he : switchEligible cfg s t
    · by_cases hd : draw < cfg.color_switch_prob
      · have hupd : fixationUpdate cfg s (some t) draw
            = ⟨toggleColor cfg s.current_color, some t,
                s.switch_log ++ [(t, toggleColor cfg s.current_color)]⟩ := by
          simp [fixationUpdate, he, hd]
        rw [hupd]
        refine ⟨?_, ?_, ?_⟩
        · rw [List.chain'_append]
          refine ⟨hchain, List.chain'_singleton _, ?_⟩
          intro x hx y hy
          cases hl : s.last_switch_time with
          | none => simp [hnone hl] at hx
          | some l =>
            obtain ⟨c, hc⟩ := hlast l hl
            rw [hc, Option.mem_some_iff] at hx
            simp only [List.head?_cons, Option.mem_some_iff] at hy
            subst hx; subst hy
            simp only [switchEligible, hl, decide_eq_true_iff] at he
            exact he
        · intro t' ht'
          simp only [Option.some_inj] at ht'
          subst ht'
          exact ⟨toggleColor cfg s.current_color, List.getLast?_concat _⟩
        · intro hcontra
          simp at hcontra
      · have hupd : fixationUpdate cfg s (some t) draw = s := by
          simp [fixationUpdate, he, hd]
        rw [hupd]; exact ⟨hchain, hlast, hnone⟩
    · have hupd : fixationUpdate cfg s (some t) draw = s := by
        simp [fixationUpdate, he]
      rw [hupd]; exact ⟨hchain, hlast, hnone⟩

theorem fixationRun_inv (cfg : FixationConfig) :
    ∀ (calls : List (Option ℚ × ℚ)) (s : FixationState),
      FixationLogInv cfg s → FixationLogInv cfg (fixationRun cfg calls s)
  | [], _, h => h
  | (now, draw) :: rest, s, h =>
    fixationRun_inv cfg rest (fixationUpdate cfg s now draw)
      (fixationUpdate_inv cfg s now draw h)

theorem initialFixation_inv (cfg : FixationConfig) :
    FixationLogInv cfg (initialFixation cfg) :=
  ⟨List.chain'_nil, fun t ht => by simp [initialFixation] at ht, fun _ => rfl⟩

/-- C4 (amended): over every sequence of `update` calls starting from a
fresh controller, consecutive switch-log entries are never closer than
`min_switch_interval`; and provided `min_switch_interval > 0` the
timestamps are in addition strictly increasing.  (With
`min_switch_interval ≤ 0` and non-increasing `now` values the strictness
fails, see the counterexample.) -/
theorem switch_log_gap_invariant (cfg : FixationConfig)
    (calls : List (Option ℚ × ℚ)) :
    List.Chain' (fun a b : ℚ × String => cfg.min_switch_interval ≤ b.1 - a.1)
      (fixationRun cfg calls (initialFixation cfg)).switch_log ∧
    (0 < cfg.min_switch_interval →
      List.Chain' (fun a b : ℚ × String => a.1 < b.1)
        (fixationRun cfg calls (initialFixation cfg)).switch_log) := by
  have h := fixationRun_inv cfg calls (initialFixation cfg)
    (initialFixation_inv cfg)
  exact ⟨h.1, fun hpos => h.1.imp fun a b hab => by linarith⟩

/-- C4 witness: a concrete two-switch run with `min_switch_interval = 2`,
with the positivity hypothesis of the strictness clause discharged. -/
theorem switch_log_gap_invariant_witness :
    List.Chain'
      (fun a b : ℚ × String =>
        (⟨("magenta", "green"), 1, 2⟩ : FixationConfig).min_switch_interval
          ≤ b.1 - a.1)
      (fixationRun ⟨("magenta", "green"), 1, 2⟩ [(some 1, 0), (some 5, 0)]
        (initialFixation ⟨("magenta", "green"), 1, 2⟩)).switch_log ∧
    List.Chain' (fun a b : ℚ × String => a.1 < b.1)
      (fixationRun ⟨("magenta", "green"), 1, 2⟩ [(some 1, 0), (some 5, 0)]
        (initialFixation ⟨("magenta", "green"), 1, 2⟩)).switch_log :=
  ⟨(switch_log_gap_invariant ⟨("magenta", "green"), 1, 2⟩
      [(some 1, 0), (some 5, 0)]).1,
    (switch_log_gap_invariant ⟨("magenta", "green"), 1, 2⟩
      [(some 1, 0), (some 5, 0)]).2 (by decide)⟩

/-- C4 counterexample: with `min_switch_interval = 0` (an allowed
configuration, and one the spec itself singles out as "every tick is
eligible") two successful switches at the same `now = 5` produce the log
`[(5, green), (5, magenta)]`, whose timestamps are not strictly
increasing — refuting the unconditional strict-increase claim. -/
theorem switch_log_counterexample :
    (fixationRun ⟨("magenta", "green"), 1, 0⟩ [(some 5, 0), (some 5, 0)]
        (initialFixation ⟨("magenta", "green"), 1, 0⟩)).switch_log
      = [(5, "green"), (5, "magenta")] ∧
    ¬ List.Chain' (fun a b : ℚ × String => a.1 < b.1)
      (fixationRun ⟨("magenta", "green"), 1, 0⟩ [(some 5, 0), (some 5, 0)]
        (initialFixation ⟨("magenta", "green"), 1, 0⟩)).switch_log := by
  have hlog : (fixationRun ⟨("magenta", "green"), 1, 0⟩ [(some 5, 0), (some 5, 0)]
      (initialFixation ⟨("magenta", "green"), 1, 0⟩)).switch_log
      = [(5, "green"), (5, "magenta")] := by decide
  refine ⟨hlog, fun hc => ?_⟩
  rw [hlog] at hc
  exact absurd (List.chain'_cons.mp hc).1 (lt_irrefl (5 : ℚ))

/-- C7 (amended): full characterization of `FixationDot.update`:  a `None`
time is a no-op; with `now = t` the state switches exactly when the
debounce guard passes and the uniform draw is below `color_switch_prob`,
in which case the color toggles between the two configured colors,
`(t, new_color)` is appended to the log and `last_switch_time := t`;
the guard passes iff there was no prior switch or
`t - last_switch_time ≥ min_switch_interval`; and when
`min_switch_interval ≤ 0` every tick with `t` at or after the last switch
time is eligible (for `t` earlier than the last switch time eligibility
can fail even with `min_switch_interval ≤ 0`, see the counterexample). -/
theorem fixation_update_characterization (cfg : FixationConfig)
    (s : FixationState) (t draw : ℚ) :
    (fixationUpdate cfg s none draw = s) ∧
    (switchEligible cfg s t = true → draw < cfg.color_switch_prob →
      fixationUpdate cfg s (some t) draw
        = ⟨toggleColor cfg s.current_color, some t,
            s.switch_log ++ [(t, toggleColor cfg s.current_color)]⟩) ∧
    (¬ (switchEligible cfg s t = true ∧ draw < cfg.color_switch_prob) →
      fixationUpdate cfg s (some t) draw = s) ∧
    (switchEligible cfg s t = true ↔
      (s.last_switch_time = none
        ∨ ∃ l, s.last_switch_time = some l ∧ cfg.min_switch_interval ≤ t - l)) ∧
    (toggleColor cfg s.current_color
      = if s.current_color = cfg.colors.1 then cfg.colors.2 else cfg.colors.1) ∧
    (cfg.min_switch_interval ≤ 0 →
      ∀ l, s.last_switch_time = some l → l ≤ t →
        switchEligible cfg s t = true) := by
  refine ⟨rfl, ?_, ?_, ?_, rfl, ?_⟩
  · intro he hd
    simp [fixationUpdate, he, hd]
  · intro hn
    by_cases he : switchEligible cfg s t
    · have hd : ¬ draw < cfg.color_switch_prob := fun hd => hn ⟨he, hd⟩
      simp [fixationUpdate, he, hd]
    · simp [fixationUpdate, he]
  · cases hl : s.last_switch_time with
    | none => simp [switchEligible, hl]
    | some l => simp [switchEligible, hl]
  · intro hiv l hl hlt
    simp only [switchEligible, hl, decide_eq_true_iff]
    linarith

/-- C7 witness: the switching clause of the characterization applied to a
fresh controller at `t = 3` with draw `0`, both hypotheses discharged by
computation. -/
theorem fixation_update_characterization_witness :
    fixationUpdate ⟨("magenta", "green"), 1, 2⟩
        (initialFixation ⟨("magenta", "green"), 1, 2⟩) (some 3) 0
      = ⟨toggleColor ⟨("magenta", "green"), 1, 2⟩
            (initialFixation ⟨("magenta", "green"), 1, 2⟩).current_color,
          some 3,
          (initialFixation ⟨("magenta", "green"), 1, 2⟩).switch_log
            ++ [(3, toggleColor ⟨("magenta", "green"), 1, 2⟩
                  (initialFixation ⟨("magenta", "green"), 1, 2⟩).current_color)]⟩ :=
  (fixation_update_characterization ⟨("magenta", "green"), 1, 2⟩
      (initialFixation ⟨("magenta", "green"), 1, 2⟩) 3 0).2.1
    (by decide) (by decide)

/-- C7 counterexample: with `min_switch_interval = 0` a state whose last
switch happened at time `2` (reached by an actual `update` call) is not
eligible at `now = 1`, refuting the unconditional reading of "when
`min_switch_interval ≤ 0` every tick is eligible". -/
theorem fixation_eligibility_counterexample :
    (⟨("magenta", "green"), 1, 0⟩ : FixationConfig).min_switch_interval ≤ 0 ∧
    switchEligible ⟨("magenta", "green"), 1, 0⟩
      (fixationUpdate ⟨("magenta", "green"), 1, 0⟩
        (initialFixation ⟨("magenta", "green"), 1, 0⟩) (some 2) 0) 1 = false := by
  constructor
  · decide
  · decide

/-! ### Lemmas about the event-log sort -/

theorem filter_time_orderedInsert (q : ℚ) (a : Event) :
    ∀ l : List Event,
      (List.orderedInsert eventLE a l).filter (fun e => decide (e.time = q))
        = if a.time = q then a :: l.filter (fun e => decide (e.time = q))
          else l.filter (fun e => decide (e.time = q))
  | [] => by
    by_cases h : a.time = q <;> simp [List.orderedInsert, h]
  | b :: l => by
    by_cases hr : eventLE a b
    · by_cases h : a.time = q <;>
        simp [List.orderedInsert, hr, h, List.filter_cons]
    · have hlt : b.time < a.time := lt_of_not_le hr
      by_cases h : a.time = q
      · have hbq : ¬ b.time = q := by
          rw [← h]
          exact ne_of_lt hlt
        simp [List.orderedInsert, hr, h, hbq, List.filter_cons,
          filter_time_orderedInsert q a l]
      · simp [List.orderedInsert, hr, h, List.filter_cons,
          filter_time_orderedInsert q a l]

theorem filter_time_insertionSort (q : ℚ) :
    ∀ l : List Event,
      (List.insertionSort eventLE l).filter (fun e => decide (e.time = q))
        = l.filter (fun e => decide (e.time = q))
  | [] => rfl
  | a :: l => by
    rw [List.insertionSort, filter_time_orderedInsert q a
      (List.insertionSort eventLE l)]
    by_cases h : a.time = q <;>
      simp [h, List.filter_cons, filter_time_insertionSort q l]

/-- C6: the run log is assembled by concatenating the four typed event
lists in the fixed order frame onsets, color switches, button presses,
scanner triggers, and stable-sorting by timestamp: the result is sorted by
time, is a permutation of the concatenation, and within every fixed
timestamp preserves the concatenation order exactly (the stability
property), so equal-timestamp events appear in the order frame_onset,
fixation_color_switch, button_press, scanner_trigger, as the concrete
all-ties instance shows. -/
theorem event_log_assembly (fo : List ℚ) (sl be : List (ℚ × String))
    (st : List ℚ) (tkey : String) :
    (assembleEvents fo sl be st tkey).Sorted eventLE ∧
    List.Perm (assembleEvents fo sl be st tkey)
      (concatEvents fo sl be st tkey) ∧
    (∀ q : ℚ,
      (assembleEvents fo sl be st tkey).filter (fun e => decide (e.time = q))
        = (concatEvents fo sl be st tkey).filter
            (fun e => decide (e.time = q))) ∧
    assembleEvents [5] [(5, "green")] [(5, "1")] [5] "s"
      = [⟨5, EventKind.frame_onset, "0"⟩,
         ⟨5, EventKind.fixation_color_switch, "green"⟩,
         ⟨5, EventKind.button_press, "1"⟩,
         ⟨5, EventKind.scanner_trigger, "button s"⟩] :=
  ⟨List.sorted_insertionSort eventLE _, List.perm_insertionSort eventLE _,
    fun q => filter_time_insertionSort q _, by decide⟩

/-- C9: sorting the merged log by timestamp is idempotent — re-sorting a
sorted log is the identity — and on identical synthetic timestamps the
tie-break order frame_onset, fixation_color_switch, button_press,
scanner_trigger is reproduced deterministically. -/
theorem event_log_sort_idempotent :
    (∀ l : List Event, sortByTime (sortByTime l) = sortByTime l) ∧
    (∀ l : List Event, l.Sorted eventLE → sortByTime l = l) ∧
    assembleEvents [7] [(7, "magenta")] [(7, "2")] [7] "t"
      = [⟨7, EventKind.frame_onset, "0"⟩,
         ⟨7, EventKind.fixation_color_switch, "magenta"⟩,
         ⟨7, EventKind.button_press, "2"⟩,
         ⟨7, EventKind.scanner_trigger, "button t"⟩] :=
  ⟨fun l => List.Sorted.insertionSort_eq (List.sorted_insertionSort eventLE l),
    fun l h => List.Sorted.insertionSort_eq h, by decide⟩

/-- C9 witness: the identity-on-sorted clause applied to a concrete
two-event sorted log, sortedness discharged by computation. -/
theorem event_log_sort_idempotent_witness :
    sortByTime [⟨1, EventKind.frame_onset, "0"⟩,
        ⟨2, EventKind.button_press, "1"⟩]
      = [⟨1, EventKind.frame_onset, "0"⟩, ⟨2, EventKind.button_press, "1"⟩] :=
  event_log_sort_idempotent.2.1 _ (by
    simp only [List.sorted_cons, List.mem_singleton, List.sorted_singleton,
      List.not_mem_nil, eventLE]
    refine ⟨?_, ?_⟩
    · intro b hb
      rw [hb]
      decide
    · simp)

/-! ### Lemmas about the presentation loop -/

theorem tickAdvance_proj (fd : ℚ) (bk : List String) (s : LoopState)
    (tk : Tick) :
    (tickAdvance fd bk s tk).frame_onsets
        = (if (s.frame_idx : ℚ) * fd ≤ tk.time then s.frame_onsets ++ [tk.time]
           else s.frame_onsets) ∧
    (tickAdvance fd bk s tk).frame_idx
        = (if (s.frame_idx : ℚ) * fd ≤ tk.time then s.frame_idx + 1
           else s.frame_idx) ∧
    (tickAdvance fd bk s tk).aborted = s.aborted := by
  by_cases ht : tk.triggerPressed <;>
    by_cases hd : (s.frame_idx : ℚ) * fd ≤ tk.time <;>
      simp [tickAdvance, ht, hd]

theorem presentationLoop_onsets_len (fd : ℚ) (N : ℕ) (bk : List String) :
    ∀ (tks : List Tick) (s : LoopState),
      ∃ δ : List ℚ,
        (presentationLoop fd N bk tks s).frame_onsets = s.frame_onsets ++ δ ∧
        (presentationLoop fd N bk tks s).frame_idx = s.frame_idx + δ.length
  | [], s => ⟨[], by simp [presentationLoop]⟩
  | tk :: rest, s => by
    by_cases hN : N ≤ s.frame_idx
    · exact ⟨[], by simp [presentationLoop, hN]⟩
    · by_cases hab : tk.abortPressed
      · exact ⟨[], by simp [presentationLoop, hN, hab]⟩
      · have hred : presentationLoop fd N bk (tk :: rest) s
            = presentationLoop fd N bk rest (tickAdvance fd bk s tk) := by
          simp [presentationLoop, hN, hab]
        obtain ⟨δ, h1, h2⟩ :=
          presentationLoop_onsets_len fd N bk rest (tickAdvance fd bk s tk)
        obtain ⟨p1, p2, _⟩ := tickAdvance_proj fd bk s tk
        by_cases hd : (s.frame_idx : ℚ) * fd ≤ tk.time
        · refine ⟨tk.time :: δ, ?_, ?_⟩
          · rw [hred, h1, p1, if_pos hd]
            simp
          · rw [hred, h2, p2, if_pos hd, List.length_cons]
            omega
        · refine ⟨δ, ?_, ?_⟩
          · rw [hred, h1, p1, if_neg hd]
          · rw [hred, h2, p2, if_neg hd]

theorem presentationLoop_frameSchedule (fd : ℚ) (N : ℕ) (bk : List String) :
    ∀ (tks : List Tick) (s : LoopState),
      (∀ tk ∈ tks, tk.abortPressed = false) →
      (presentationLoop fd N bk tks s).frame_onsets
          = s.frame_onsets
              ++ (frameSchedule fd N (tks.map Tick.time) s.frame_idx).1 ∧
      (presentationLoop fd N bk tks s).frame_idx
          = (frameSchedule fd N (tks.map Tick.time) s.frame_idx).2
  | [], s, _ => by simp [presentationLoop, frameSchedule]
  | tk :: rest, s, hab => by
    have habk : tk.abortPressed = false := hab tk (List.mem_cons_self _ _)
    have habr : ∀ t ∈ rest, t.abortPressed = false :=
      fun t ht => hab t (List.mem_cons_of_mem _ ht)
    by_cases hN : N ≤ s.frame_idx
    · simp [presentationLoop, frameSchedule, hN]
    · have hred : presentationLoop fd N bk (tk :: rest) s
          = presentationLoop fd N bk rest (tickAdvance fd bk s tk) := by
        simp [presentationLoop, hN, habk]
      obtain ⟨h1, h2⟩ :=
        presentationLoop_frameSchedule fd N bk rest (tickAdvance fd bk s tk)
          habr
      obtain ⟨p1, p2, _⟩ := tickAdvance_proj fd bk s tk
      by_cases hd : (s.frame_idx : ℚ) * fd ≤ tk.time
      · have hsched : frameSchedule fd N (tk.time :: rest.map Tick.time)
            s.frame_idx
            = ((tk.time :: (frameSchedule fd N (rest.map Tick.time)
                (s.frame_idx + 1)).1,
                (frameSchedule fd N (rest.map Tick.time) (s.frame_idx + 1)).2)) := by
          simp [frameSchedule, hN, hd]
        constructor
        · rw [hred, h1, p1, p2, if_pos hd, if_pos hd, List.map_cons, hsched]
          simp
        · rw [hred, h2, p2, if_pos hd, List.map_cons, hsched]
      · have hsched : frameSchedule fd N (tk.time :: rest.map Tick.time)
            s.frame_idx
            = frameSchedule fd N (rest.map Tick.time) s.frame_idx := by
          simp [frameSchedule, hN, hd]
        constructor
        · rw [hred, h1, p1, p2, if_neg hd, if_neg hd, List.map_cons, hsched]
        · rw [hred, h2, p2, if_neg hd, List.map_cons, hsched]

theorem frameSchedule_len (fd : ℚ) (N : ℕ) :
    ∀ (ts : List ℚ) (i : ℕ),
      (frameSchedule fd N ts i).2 = i + (frameSchedule fd N ts i).1.length
  | [], i => by simp [frameSchedule]
  | t :: ts, i => by
    by_cases hN : N ≤ i
    · simp [frameSchedule, hN]
    · by_cases hd : (i : ℚ) * fd ≤ t
      · have := frameSchedule_len fd N ts (i + 1)
        simp only [frameSchedule, if_neg hN, if_pos hd, List.length_cons]
        omega
      · have := frameSchedule_len fd N ts i
        simpa [frameSchedule, hN, hd] using this

theorem frameSchedule_sublist (fd : ℚ) (N : ℕ) :
    ∀ (ts : List ℚ) (i : ℕ), (frameSchedule fd N ts i).1.Sublist ts
  | [], i => by simp [frameSchedule]
  | t :: ts, i => by
    by_cases hN : N ≤ i
    · simp [frameSchedule, hN]
    · by_cases hd : (i : ℚ) * fd ≤ t
      · simpa [frameSchedule, hN, hd] using
          List.Sublist.cons₂ t (frameSchedule_sublist fd N ts (i + 1))
      · simpa [frameSchedule, hN, hd] using
          List.Sublist.cons t (frameSchedule_sublist fd N ts i)

theorem frameSchedule_due_bound (fd : ℚ) (N : ℕ) :
    ∀ (ts : List ℚ) (i k : ℕ) (x : ℚ),
      (frameSchedule fd N ts i).1.get? k = some x →
      ((i + k : ℕ) : ℚ) * fd ≤ x
  | [], i, k, x => by simp [frameSchedule]
  | t :: ts, i, k, x => by
    by_cases hN : N ≤ i
    · rw [show (frameSchedule fd N (t :: ts) i).1 = [] from by
        simp [frameSchedule, hN]]
      simp
    · by_cases hd : (i : ℚ) * fd ≤ t
      · rw [show (frameSchedule fd N (t :: ts) i).1
            = t :: (frameSchedule fd N ts (i + 1)).1 from by
          simp [frameSchedule, hN, hd]]
        cases k with
        | zero =>
          intro hx
          simp only [List.get?_cons_zero, Option.some_inj] at hx
          subst hx
          simpa using hd
        | succ k =>
          intro hx
          simp only [List.get?_cons_succ] at hx
          have := frameSchedule_due_bound fd N ts (i + 1) k x hx
          have hcast : ((i + (k + 1) : ℕ) : ℚ) = ((i + 1 + k : ℕ) : ℚ) := by
            congr 1
            omega
          rw [hcast]
          exact this
      · rw [show (frameSchedule fd N (t :: ts) i).1
            = (frameSchedule fd N ts i).1 from by
          simp [frameSchedule, hN, hd]]
        exact frameSchedule_due_bound fd N ts i k x

theorem frameSchedule_firstDue (fd : ℚ) (N : ℕ) :
    ∀ (ts : List ℚ) (i : ℕ),
      FirstDuePolicy fd i ts (frameSchedule fd N ts i).1
  | [], i => by
    rw [show (frameSchedule fd N [] i).1 = [] from rfl]
    exact FirstDuePolicy.stop i []
  | t :: ts, i => by
    by_cases hN : N ≤ i
    · rw [show (frameSchedule fd N (t :: ts) i).1 = [] from by
        simp [frameSchedule, hN]]
      exact FirstDuePolicy.stop i (t :: ts)
    · by_cases hd : (i : ℚ) * fd ≤ t
      · rw [show (frameSchedule fd N (t :: ts) i).1
            = t :: (frameSchedule fd N ts (i + 1)).1 from by
          simp [frameSchedule, hN, hd]]
        exact FirstDuePolicy.present i t ts _ hd
          (frameSchedule_firstDue fd N ts (i + 1))
      · rw [show (frameSchedule fd N (t :: ts) i).1
            = (frameSchedule fd N ts i).1 from by
          simp [frameSchedule, hN, hd]]
        exact FirstDuePolicy.skip i t ts _ (lt_of_not_le hd)
          (frameSchedule_firstDue fd N ts i)

theorem countP_frame_onset_assemble (fo : List ℚ) (sl be : List (ℚ × String))
    (st : List ℚ) (tkey : String) :
    (assembleEvents fo sl be st tkey).countP
        (fun e => decide (e.kind = EventKind.frame_onset)) = fo.length := by
  rw [assembleEvents, sortByTime,
    (List.perm_insertionSort eventLE _).countP_eq, concatEvents]
  rw [List.countP_append, List.countP_append, List.countP_append]
  have h1 : (fo.enum.map fun p =>
      (⟨p.2, EventKind.frame_onset, toString p.1⟩ : Event)).countP
        (fun e => decide (e.kind = EventKind.frame_onset))
      = (fo.enum.map fun p =>
          (⟨p.2, EventKind.frame_onset, toString p.1⟩ : Event)).length := by
    rw [List.countP_eq_length]
    intro a ha
    simp only [List.mem_map] at ha
    obtain ⟨p, _, hp⟩ := ha
    subst hp
    simp
  have h2 : (sl.map fun p =>
      (⟨p.1, EventKind.fixation_color_switch, p.2⟩ : Event)).countP
        (fun e => decide (e.kind = EventKind.frame_onset)) = 0 := by
    rw [List.countP_eq_zero]
    intro a ha
    simp only [List.mem_map] at ha
    obtain ⟨p, _, hp⟩ := ha
    subst hp
    simp
  have h3 : (be.map fun p =>
      (⟨p.1, EventKind.button_press, p.2⟩ : Event)).countP
        (fun e => decide (e.kind = EventKind.frame_onset)) = 0 := by
    rw [List.countP_eq_zero]
    intro a ha
    simp only [List.mem_map] at ha
    obtain ⟨p, _, hp⟩ := ha
    subst hp
    simp
  have h4 : (st.map fun t =>
      (⟨t, EventKind.scanner_trigger, "button " ++ tkey⟩ : Event)).countP
        (fun e => decide (e.kind = EventKind.frame_onset)) = 0 := by
    rw [List.countP_eq_zero]
    intro a ha
    simp only [List.mem_map] at ha
    obtain ⟨p, _, hp⟩ := ha
    subst hp
    simp
  rw [h1, h2, h3, h4]
  simp

/-- C1: on every run that completes normally — no abort tick consumed and
the final `frame_idx` equals `N` — with strictly increasing clock
readings, the loop records exactly `N` frame onsets, the onset timestamps
are strictly increasing, the `k`-th onset time is at least
`k × frame_duration`, and the onsets follow the frame-due policy: each
frame is presented at the first tick whose reading reaches
`frame_index × frame_duration`, no due frame being skipped. -/
theorem presentation_frame_onsets_spec (fd : ℚ) (N : ℕ) (bk : List String)
    (tks : List Tick)
    (hab : ∀ tk ∈ tks, tk.abortPressed = false)
    (hsorted : (tks.map Tick.time).Sorted (· < ·))
    (hdone : (presentationLoop fd N bk tks initialLoopState).frame_idx = N) :
    (presentationLoop fd N bk tks initialLoopState).frame_onsets.length = N ∧
    (presentationLoop fd N bk tks initialLoopState).frame_onsets.Sorted
      (· < ·) ∧
    (∀ (k : ℕ)
      (hk : k <
        (presentationLoop fd N bk tks initialLoopState).frame_onsets.length),
      (k : ℚ) * fd ≤
        (presentationLoop fd N bk tks initialLoopState).frame_onsets.get
          ⟨k, hk⟩) ∧
    FirstDuePolicy fd 0 (tks.map Tick.time)
      (presentationLoop fd N bk tks initialLoopState).frame_onsets := by
  obtain ⟨h1, h2⟩ :=
    presentationLoop_frameSchedule fd N bk tks initialLoopState hab
  have heq : (presentationLoop fd N bk tks initialLoopState).frame_onsets
      = (frameSchedule fd N (tks.map Tick.time) 0).1 := by
    simpa [initialLoopState] using h1
  have h2' : (presentationLoop fd N bk tks initialLoopState).frame_idx
      = (frameSchedule fd N (tks.map Tick.time) 0).2 := by
    simpa [initialLoopState] using h2
  have hidx : (frameSchedule fd N (tks.map Tick.time) 0).2 = N := by
    rw [← h2']
    exact hdone
  have hlen := frameSchedule_len fd N (tks.map Tick.time) 0
  rw [heq]
  refine ⟨by omega, ?_, ?_, frameSchedule_firstDue fd N (tks.map Tick.time) 0⟩
  · exact List.Pairwise.sublist (frameSchedule_sublist fd N _ 0) hsorted
  · intro k hk
    have := frameSchedule_due_bound fd N (tks.map Tick.time) 0 k _
      (List.get?_eq_get hk)
    simpa using this

/-- C1 witness: a two-frame run with unit frame duration and clock
readings `0, 1`; all three hypotheses discharged by computation. -/
theorem presentation_frame_onsets_spec_witness :
    (presentationLoop 1 2 ["1"]
      [⟨false, 0, false, []⟩, ⟨false, 1, false, []⟩]
      initialLoopState).frame_onsets.length = 2 :=
  (presentation_frame_onsets_spec 1 2 ["1"]
    [⟨false, 0, false, []⟩, ⟨false, 1, false, []⟩]
    (by decide)
    (by decide)
    (by decide)).1

/-- C5: the input gate emits, per tick, one ButtonEvent for exactly the
keys in the current snapshot intersected with the configured response keys
and absent from the previous filtered snapshot, then replaces the stored
previous state with the current filtered snapshot; hence a key held over
consecutive ticks yields no second event, and the four-tick sequence
`[{a}, {a}, {}, {a}]` with response set `{a}` yields events at ticks 1 and
4 only. -/
theorem input_gate_spec :
    (∀ (bk prev snap : List String) (t : ℚ) (kname : String),
      (t, kname) ∈ newButtonEvents bk prev snap t
        ↔ (kname ∈ snap ∧ kname ∈ bk ∧ kname ∉ prev)) ∧
    (∀ (bk snap : List String) (t : ℚ),
      newButtonEvents bk (pressedFiltered bk snap) snap t = []) ∧
    inputGateRun ["a"] [(1, ["a"]), (2, ["a"]), (3, []), (4, ["a"])] []
      = [(1, "a"), (4, "a")] := by
  refine ⟨?_, ?_, by decide⟩
  · intro bk prev snap t kname
    simp only [newButtonEvents, pressedFiltered, List.mem_map,
      List.mem_filter, decide_eq_true_iff, Prod.mk.injEq]
    constructor
    · rintro ⟨a, ⟨⟨ha1, ha2⟩, ha3⟩, _, rfl⟩
      exact ⟨ha1, ha2, ha3⟩
    · rintro ⟨h1, h2, h3⟩
      exact ⟨kname, ⟨⟨h1, h2⟩, h3⟩, by simp⟩
  · intro bk snap t
    rw [newButtonEvents,
      show (pressedFiltered bk snap).filter
          (fun k => decide (k ∉ pressedFiltered bk snap)) = [] from
        List.filter_eq_nil_iff.mpr fun a ha => by simp [ha]]
    rfl

/-- C8: whenever the loop ends with `aborted = true` and `frame_idx = k`,
exactly `k` frame onsets were recorded, the assembled run log contains
exactly `k` `frame_onset` events (whatever the switch log holds), and
teardown runs exactly once on the abort-during-run exit path. -/
theorem abort_frame_count (fd : ℚ) (N : ℕ) (bk : List String)
    (tks : List Tick) (k : ℕ) (sl : List (ℚ × String)) (tkey : String)
    (_habort : (presentationLoop fd N bk tks initialLoopState).aborted = true)
    (hk : (presentationLoop fd N bk tks initialLoopState).frame_idx = k) :
    (presentationLoop fd N bk tks initialLoopState).frame_onsets.length = k ∧
    (assembleEvents
        (presentationLoop fd N bk tks initialLoopState).frame_onsets sl
        (presentationLoop fd N bk tks initialLoopState).button_events
        (presentationLoop fd N bk tks initialLoopState).scan_trigger_times
        tkey).countP (fun e => decide (e.kind = EventKind.frame_onset)) = k ∧
    teardownRuns ExitPath.runAbort = 1 := by
  obtain ⟨δ, h1, h2⟩ := presentationLoop_onsets_len fd N bk tks initialLoopState
  have h2' : (presentationLoop fd N bk tks initialLoopState).frame_idx
      = δ.length := by
    simpa [initialLoopState] using h2
  have hlen : (presentationLoop fd N bk tks initialLoopState).frame_onsets.length
      = k := by
    rw [h1]
    simp only [initialLoopState, List.nil_append]
    omega
  exact ⟨hlen, by rw [countP_frame_onset_assemble, hlen], rfl⟩

/-- Tick trace for the C8 witness: fifty due ticks at clock readings
`0, …, 49`, then a tick on which the abort key is observed. -/
def abortTicks : List Tick :=
  ((List.range 50).map fun n => ⟨false, (n : ℚ), false, []⟩)
    ++ [⟨true, 50, false, []⟩]

/-- C8 witness: aborting at `frame_idx = 50` of `N = 300` yields exactly
50 recorded onsets and 50 `frame_onset` rows in the log; both hypotheses
discharged by computation. -/
theorem abort_frame_count_witness :
    (presentationLoop 1 300 ["1"] abortTicks initialLoopState).frame_onsets.length
        = 50 ∧
    (assembleEvents
        (presentationLoop 1 300 ["1"] abortTicks initialLoopState).frame_onsets
        []
        (presentationLoop 1 300 ["1"] abortTicks initialLoopState).button_events
        (presentationLoop 1 300 ["1"] abortTicks initialLoopState).scan_trigger_times
        "s").countP (fun e => decide (e.kind = EventKind.frame_onset)) = 50 ∧
    teardownRuns ExitPath.runAbort = 1 :=
  abort_frame_count 1 300 ["1"] abortTicks 50 [] "s" (by decide) (by decide)

/-! ### Teardown theorems -/

/-- C3 counterexample: the claim that every cleanup action is attempted
independently on every exit path fails on the code: when the unguarded
`send_message("stimulus_end")` raises, `stop_recording` (and everything
after it) is never attempted; and the break-screen abort returns before
the `try` block, so no teardown runs on that exit path at all. -/
theorem teardown_counterexample :
    CleanupAct.stopRecording ∉ (teardown true true false false false false).1 ∧
    teardownRuns ExitPath.breakScreenAbort = 0 := by
  constructor
  · decide
  · rfl

/-- C3 (amended): teardown runs exactly once on every exit path that
reaches the `try` block (the break-screen abort path runs none).  Within
teardown, `stop_recording`'s failure is swallowed and never changes what
else is attempted; when the end-of-stimulus message succeeds, stop,
download and device close are always attempted, device close even when the
download fails; but a failing end-of-stimulus message skips every later
action, and a failing download or device close skips the window close. -/
theorem teardown_amended :
    (∀ fm fd fc fw : Bool,
      teardown true fm true fd fc fw = teardown true fm false fd fc fw) ∧
    (∀ fs fd fc fw : Bool,
      (teardown true false fs fd fc fw).1
        = if fd || fc then
            [CleanupAct.sendEndMessage, CleanupAct.stopRecording,
              CleanupAct.downloadData, CleanupAct.closeTracker]
          else
            [CleanupAct.sendEndMessage, CleanupAct.stopRecording,
              CleanupAct.downloadData, CleanupAct.closeTracker,
              CleanupAct.closeWindow]) ∧
    (∀ fs fd fc fw : Bool,
      (teardown true true fs fd fc fw).1 = [CleanupAct.sendEndMessage]) ∧
    (∀ fs fd fc fw : Bool,
      (fd || fc) = true →
        CleanupAct.closeWindow ∉ (teardown true false fs fd fc fw).1) ∧
    teardownRuns ExitPath.preTriggerAbort = 1 ∧
    teardownRuns ExitPath.runAbort = 1 ∧
    teardownRuns ExitPath.runException = 1 ∧
    teardownRuns ExitPath.normalCompletion = 1 := by
  refine ⟨?_, ?_, ?_, ?_, rfl, rfl, rfl, rfl⟩
  · intro fm fd fc fw
    cases fm <;> cases fd <;> cases fc <;> cases fw <;> rfl
  · intro fs fd fc fw
    cases fd <;> cases fc <;> rfl
  · intro fs fd fc fw
    rfl
  · intro fs fd fc fw h
    cases fs <;> cases fd <;> cases fc <;> cases fw <;> revert h <;> decide

/-- C3 witness: the skip-window-close clause applied at a concrete failing
download, its hypothesis discharged by computation. -/
theorem teardown_amended_witness :
    CleanupAct.closeWindow ∉ (teardown true false false true false false).1 :=
  teardown_amended.2.2.2.1 false true false false (by decide)

end Stim4prf
